import Mathlib

/-!
Verification of the tag-based kNN engagement predictor (`src/tiktok_knn.cpp`).

The C++ program is embedded shallowly:

* `Record` mirrors `struct Record`: an id, an `unordered_set<string>` of tags
  (modelled as `Finset String`), and three `long long` counters (modelled as
  unbounded `Int`; the program never exercises 64-bit overflow in the claims
  under study, and C++ `long long` arithmetic agrees with `Int` as long as no
  overflow occurs).
* `jaccard` returns `float` in C++; it is modelled with exact rationals `ℚ`.
  The C++ value is the rounding of this rational to `float`; all distance
  comparisons in the claims are exact at this level.
* `std::nth_element` followed by `std::sort` on the first `K` slots with the
  strict comparator `a.dist < b.dist` leaves the `K` smallest nodes, sorted
  nondecreasingly by distance, in the first `K` positions; which node wins a
  tie is unspecified by both the C++ standard and the spec.  `selectTopK`
  models this as a full stable sort by `dist ≤` followed by `take`, one of
  the behaviours the source admits; every property proved about it concerns
  only lengths and distance multisets, which every admissible behaviour
  shares.
* File input is modelled as `Option (List String)`: `none` when the stream
  cannot be opened, `some lines` for the file's lines.  `std::stoll`'s
  throwing behaviour is modelled with `Option Int` (`none` = would throw).
-/

set_option linter.unusedVariables false

namespace TiktokKnn

/-- Mirror of `struct Record` (src/tiktok_knn.cpp:11-15).  The default value
matches C++ value-initialisation: empty id, empty tag set, zero counters. -/
structure Record where
  id : String
  tags : Finset String
  views : Int
  likes : Int
  comments : Int
deriving DecidableEq, Inhabited

/-- Mirror of `struct Node { float dist; size_t idx; }` (line 101), with the
distance held as an exact rational. -/
structure Node where
  dist : ℚ
  idx : ℕ
deriving DecidableEq, Inhabited

/-- The tokenisation performed by the `std::getline(ss, buf, delim)` loop
inside `split`: cut the character stream at every delimiter.  (`getline`
emits no token at all on empty input and none after a trailing delimiter,
while this function emits a final `""` there; the difference is erased by
the emptiness filter in `split`.) -/
def getlineTokens (delim : Char) : List Char → List Char → List String
  | [], buf => [String.mk buf.reverse]
  | c :: cs, buf =>
    if c = delim then String.mk buf.reverse :: getlineTokens delim cs []
    else getlineTokens delim cs (c :: buf)

/-- Mirror of `split` (lines 19-26): split on the delimiter, keep only
non-empty substrings. -/
def split (s : String) (delim : Char) : List String :=
  (getlineTokens delim s.data []).filter (fun t => !t.isEmpty)

/-- Mirror of `jaccard` (lines 29-36): `0` when both sets are empty,
otherwise `1 - |A ∩ B| / (|A| + |B| - |A ∩ B|)`.  The loop over `A` counting
hits in `B` computes exactly `(A ∩ B).card`. -/
def jaccard (A B : Finset String) : ℚ :=
  if A = ∅ ∧ B = ∅ then 0
  else
    let inter : ℕ := (A ∩ B).card
    let uni : ℕ := A.card + B.card - inter
    1 - (inter : ℚ) / (uni : ℚ)

lemma uni_eq_card_union (A B : Finset String) :
    A.card + B.card - (A ∩ B).card = (A ∪ B).card := by
  have h := Finset.card_union_add_card_inter A B
  omega

lemma card_inter_le_card_union (A B : Finset String) :
    (A ∩ B).card ≤ (A ∪ B).card :=
  Finset.card_le_card (Finset.inter_subset_union)

lemma inter_eq_union_iff (A B : Finset String) :
    A ∩ B = A ∪ B ↔ A = B := by
  constructor
  · intro h
    apply Finset.Subset.antisymm
    · intro x hx
      have hxu : x ∈ A ∪ B := Finset.mem_union_left _ hx
      rw [← h] at hxu
      exact (Finset.mem_inter.mp hxu).2
    · intro x hx
      have hxu : x ∈ A ∪ B := Finset.mem_union_right _ hx
      rw [← h] at hxu
      exact (Finset.mem_inter.mp hxu).1
  · intro h
    subst h
    simp

/-- Claim C3: the Jaccard distance is symmetric: `jaccard A B = jaccard B A`. -/
theorem jaccard_comm (A B : Finset String) : jaccard A B = jaccard B A := by
  unfold jaccard
  refine if_congr and_comm rfl ?_
  simp only [Finset.inter_comm B A, Nat.add_comm B.card A.card]

/-- Round to the nearest integer, ties to the even integer: the IEEE-754
default rounding applied to a scaled significand. -/
def roundInt (m : ℚ) : ℤ :=
  if m - ⌊m⌋ < 1 / 2 then ⌊m⌋
  else if 1 / 2 < m - ⌊m⌋ then ⌊m⌋ + 1
  else if ⌊m⌋ % 2 = 0 then ⌊m⌋ else ⌊m⌋ + 1

/-- Round a rational to `float` (IEEE-754 binary32: 24 significand bits,
round to nearest, ties to even).  Negative inputs never occur in this
program (the function is applied to set cardinalities, their quotient, and
`1 - q` with `q ≤ 1`), and every value that occurs lies far inside the
normal range, so subnormals and overflow are not modelled. -/
def fl32 (x : ℚ) : ℚ :=
  if x ≤ 0 then 0
  else (roundInt (x / 2 ^ (Int.log 2 x - 23)) : ℚ) * 2 ^ (Int.log 2 x - 23)

lemma roundInt_intCast (n : ℤ) : roundInt (n : ℚ) = n := by
  norm_num [roundInt]

lemma roundInt_le (m : ℚ) : (roundInt m : ℚ) ≤ m + 1 / 2 := by
  have h0 : (⌊m⌋ : ℚ) ≤ m := Int.floor_le m
  have h1 : m < ⌊m⌋ + 1 := Int.lt_floor_add_one m
  unfold roundInt
  split_ifs <;> push_cast <;> linarith

lemma le_roundInt (m : ℚ) : m - 1 / 2 ≤ (roundInt m : ℚ) := by
  have h0 : (⌊m⌋ : ℚ) ≤ m := Int.floor_le m
  have h1 : m < ⌊m⌋ + 1 := Int.lt_floor_add_one m
  unfold roundInt
  split_ifs <;> push_cast <;> linarith

lemma floor_le_roundInt (m : ℚ) : ⌊m⌋ ≤ roundInt m := by
  unfold roundInt
  split_ifs <;> omega

lemma roundInt_le_floor_add_one (m : ℚ) : roundInt m ≤ ⌊m⌋ + 1 := by
  unfold roundInt
  split_ifs <;> omega

lemma roundInt_mono {a b : ℚ} (hab : a ≤ b) : roundInt a ≤ roundInt b := by
  rcases lt_or_eq_of_le (Int.floor_mono hab) with hfl | hfl
  · calc roundInt a ≤ ⌊a⌋ + 1 := roundInt_le_floor_add_one a
      _ ≤ ⌊b⌋ := by omega
      _ ≤ roundInt b := floor_le_roundInt b
  · unfold roundInt
    rw [← hfl]
    split_ifs <;> first | omega | linarith

lemma two_zpow_pos (e : ℤ) : (0 : ℚ) < 2 ^ e := by positivity

lemma fl32_of_pos {x : ℚ} (hx : 0 < x) :
    fl32 x = (roundInt (x / 2 ^ (Int.log 2 x - 23)) : ℚ)
      * 2 ^ (Int.log 2 x - 23) :=
  if_neg (not_le.mpr hx)

lemma fl32_zero : fl32 0 = 0 := by
  rw [fl32, if_pos le_rfl]

lemma two_zpow_log_le {x : ℚ} (hx : 0 < x) :
    (2 : ℚ) ^ (Int.log 2 x) ≤ x := by
  have h := Int.zpow_log_le_self (b := 2) (R := ℚ) (by norm_num) hx
  simpa using h

lemma lt_two_zpow_succ_log (x : ℚ) :
    x < (2 : ℚ) ^ (Int.log 2 x + 1) := by
  have h := Int.lt_zpow_succ_log_self (b := 2) (R := ℚ) (by norm_num) x
  simpa using h

lemma significand_bounds {x : ℚ} (hx : 0 < x) :
    (8388608 : ℚ) ≤ x / 2 ^ (Int.log 2 x - 23) ∧
    x / 2 ^ (Int.log 2 x - 23) < 16777216 := by
  have h2 : (0 : ℚ) < 2 ^ (Int.log 2 x - 23) := two_zpow_pos _
  constructor
  · rw [le_div_iff h2, show (8388608 : ℚ) = 2 ^ (23 : ℤ) by norm_num,
      ← zpow_add₀ (by norm_num : (2 : ℚ) ≠ 0)]
    have he : (23 : ℤ) + (Int.log 2 x - 23) = Int.log 2 x := by ring
    rw [he]
    exact two_zpow_log_le hx
  · rw [div_lt_iff h2, show (16777216 : ℚ) = 2 ^ (24 : ℤ) by norm_num,
      ← zpow_add₀ (by norm_num : (2 : ℚ) ≠ 0)]
    have he : (24 : ℤ) + (Int.log 2 x - 23) = Int.log 2 x + 1 := by ring
    rw [he]
    exact lt_two_zpow_succ_log x

lemma roundInt_sig_bounds {m : ℚ} (h1 : (8388608 : ℚ) ≤ m)
    (h2 : m < 16777216) :
    (8388608 : ℤ) ≤ roundInt m ∧ roundInt m ≤ 16777216 := by
  have hf1 : (8388608 : ℤ) ≤ ⌊m⌋ := by
    rw [Int.le_floor]
    exact_mod_cast h1
  have hf2 : ⌊m⌋ < 16777216 := by
    rw [Int.floor_lt]
    exact_mod_cast h2
  exact ⟨le_trans hf1 (floor_le_roundInt m),
    le_trans (roundInt_le_floor_add_one m) (by omega)⟩

lemma fl32_lb {x : ℚ} (hx : 0 < x) : (2 : ℚ) ^ (Int.log 2 x) ≤ fl32 x := by
  rw [fl32_of_pos hx]
  have h2 : (0 : ℚ) < 2 ^ (Int.log 2 x - 23) := two_zpow_pos _
  have hs := significand_bounds hx
  have hb := (roundInt_sig_bounds hs.1 hs.2).1
  have hb' : (8388608 : ℚ) ≤ (roundInt (x / 2 ^ (Int.log 2 x - 23)) : ℚ) := by
    exact_mod_cast hb
  calc (2 : ℚ) ^ (Int.log 2 x)
      = 8388608 * 2 ^ (Int.log 2 x - 23) := by
        rw [show (8388608 : ℚ) = 2 ^ (23 : ℤ) by norm_num,
          ← zpow_add₀ (by norm_num : (2 : ℚ) ≠ 0)]
        congr 1
        ring
    _ ≤ _ := mul_le_mul_of_nonneg_right hb' (le_of_lt h2)

lemma fl32_ub {x : ℚ} (hx : 0 < x) :
    fl32 x ≤ (2 : ℚ) ^ (Int.log 2 x + 1) := by
  rw [fl32_of_pos hx]
  have h2 : (0 : ℚ) < 2 ^ (Int.log 2 x - 23) := two_zpow_pos _
  have hs := significand_bounds hx
  have hb := (roundInt_sig_bounds hs.1 hs.2).2
  have hb' : (roundInt (x / 2 ^ (Int.log 2 x - 23)) : ℚ) ≤ 16777216 := by
    exact_mod_cast hb
  calc (roundInt (x / 2 ^ (Int.log 2 x - 23)) : ℚ) * 2 ^ (Int.log 2 x - 23)
      ≤ 16777216 * 2 ^ (Int.log 2 x - 23) :=
        mul_le_mul_of_nonneg_right hb' (le_of_lt h2)
    _ = 2 ^ (Int.log 2 x + 1) := by
        rw [show (16777216 : ℚ) = 2 ^ (24 : ℤ) by norm_num,
          ← zpow_add₀ (by norm_num : (2 : ℚ) ≠ 0)]
        congr 1
        ring

lemma fl32_pos {x : ℚ} (hx : 0 < x) : 0 < fl32 x :=
  lt_of_lt_of_le (two_zpow_pos _) (fl32_lb hx)

lemma fl32_nonneg (x : ℚ) : 0 ≤ fl32 x := by
  rcases le_or_lt x 0 with h | h
  · rw [fl32, if_pos h]
  · exact le_of_lt (fl32_pos h)

lemma fl32_close {x : ℚ} (hx : 0 < x) :
    x - 2 ^ (Int.log 2 x - 24) ≤ fl32 x ∧
    fl32 x ≤ x + 2 ^ (Int.log 2 x - 24) := by
  rw [fl32_of_pos hx]
  have h2 : (0 : ℚ) < 2 ^ (Int.log 2 x - 23) := two_zpow_pos _
  have hr1 := le_roundInt (x / 2 ^ (Int.log 2 x - 23))
  have hr2 := roundInt_le (x / 2 ^ (Int.log 2 x - 23))
  have hud : x / 2 ^ (Int.log 2 x - 23) * 2 ^ (Int.log 2 x - 23) = x :=
    div_mul_cancel₀ x (ne_of_gt h2)
  have huu : (1 / 2 : ℚ) * 2 ^ (Int.log 2 x - 23) = 2 ^ (Int.log 2 x - 24) := by
    rw [show (1 / 2 : ℚ) = 2 ^ (-1 : ℤ) by norm_num,
      ← zpow_add₀ (by norm_num : (2 : ℚ) ≠ 0)]
    congr 1
    ring
  constructor
  · calc x - 2 ^ (Int.log 2 x - 24)
        = (x / 2 ^ (Int.log 2 x - 23) - 1 / 2) * 2 ^ (Int.log 2 x - 23) := by
          rw [sub_mul, hud, huu]
      _ ≤ _ := mul_le_mul_of_nonneg_right hr1 (le_of_lt h2)
  · calc (roundInt (x / 2 ^ (Int.log 2 x - 23)) : ℚ) * 2 ^ (Int.log 2 x - 23)
        ≤ (x / 2 ^ (Int.log 2 x - 23) + 1 / 2) * 2 ^ (Int.log 2 x - 23) :=
          mul_le_mul_of_nonneg_right hr2 (le_of_lt h2)
      _ = x + 2 ^ (Int.log 2 x - 24) := by rw [add_mul, hud, huu]

lemma fl32_mono {x y : ℚ} (hxy : x ≤ y) : fl32 x ≤ fl32 y := by
  rcases le_or_lt x 0 with hx | hx
  · rw [fl32, if_pos hx]
    exact fl32_nonneg y
  · have hy : 0 < y := lt_of_lt_of_le hx hxy
    have hlog : Int.log 2 x ≤ Int.log 2 y := Int.log_mono_right hx hxy
    rcases lt_or_eq_of_le hlog with hlt | heq
    · calc fl32 x ≤ 2 ^ (Int.log 2 x + 1) := fl32_ub hx
        _ ≤ 2 ^ (Int.log 2 y) :=
          zpow_le_zpow_right₀ (by norm_num : (1 : ℚ) ≤ 2) (by omega)
        _ ≤ fl32 y := fl32_lb hy
    · rw [fl32_of_pos hx, fl32_of_pos hy, ← heq]
      apply mul_le_mul_of_nonneg_right _ (le_of_lt (two_zpow_pos _))
      have hm : x / 2 ^ (Int.log 2 x - 23) ≤ y / 2 ^ (Int.log 2 x - 23) :=
        (div_le_div_right (two_zpow_pos _)).mpr hxy
      exact_mod_cast roundInt_mono hm

lemma fl32_eq_self_of_int {x : ℚ} (hx : 0 < x) (k : ℤ)
    (hk : x / 2 ^ (Int.log 2 x - 23) = (k : ℚ)) : fl32 x = x := by
  rw [fl32_of_pos hx, hk, roundInt_intCast, ← hk,
    div_mul_cancel₀ x (ne_of_gt (two_zpow_pos _))]

lemma fl32_natCast {n : ℕ} (h2 : n ≤ 2 ^ 24) : fl32 (n : ℚ) = n := by
  rcases Nat.eq_zero_or_pos n with rfl | hn
  · rw [Nat.cast_zero, fl32_zero]
  · have hx : (0 : ℚ) < (n : ℚ) := by exact_mod_cast hn
    have hL0 : 0 ≤ Int.log 2 ((n : ℚ)) := by
      have h1 : ((2 : ℕ) : ℚ) ^ (0 : ℤ) ≤ (n : ℚ) := by
        push_cast
        norm_num
        exact_mod_cast hn
      exact (Int.zpow_le_iff_le_log (by norm_num) hx).mp h1
    have hL24 : Int.log 2 ((n : ℚ)) ≤ 24 := by
      have h1 : (n : ℚ) < ((2 : ℕ) : ℚ) ^ (25 : ℤ) := by
        push_cast
        calc (n : ℚ) ≤ ((2 ^ 24 : ℕ) : ℚ) := by exact_mod_cast h2
          _ < 2 ^ (25 : ℤ) := by push_cast; norm_num
      have := (Int.lt_zpow_iff_log_lt (by norm_num) hx).mp h1
      omega
    rcases le_or_lt (Int.log 2 ((n : ℚ))) 23 with hle | hgt
    · apply fl32_eq_self_of_int hx ((n : ℤ) * 2 ^ (23 - Int.log 2 ((n : ℚ))).toNat)
      rw [div_eq_iff (ne_of_gt (two_zpow_pos _))]
      push_cast
      rw [mul_assoc, ← zpow_natCast (2 : ℚ) (23 - Int.log 2 ((n : ℚ))).toNat,
        ← zpow_add₀ (by norm_num : (2 : ℚ) ≠ 0)]
      have he : ((23 - Int.log 2 ((n : ℚ))).toNat : ℤ)
          + (Int.log 2 ((n : ℚ)) - 23) = 0 := by omega
      rw [he, zpow_zero, mul_one]
    · have hL : Int.log 2 ((n : ℚ)) = 24 := by omega
      have hnge : (2 : ℚ) ^ (24 : ℤ) ≤ (n : ℚ) := by
        have := two_zpow_log_le hx
        rwa [hL] at this
      have hneq : (n : ℚ) = 2 ^ (24 : ℤ) := by
        refine le_antisymm ?_ hnge
        calc (n : ℚ) ≤ ((2 ^ 24 : ℕ) : ℚ) := by exact_mod_cast h2
          _ = 2 ^ (24 : ℤ) := by push_cast; norm_num
      apply fl32_eq_self_of_int hx (2 ^ 23)
      rw [hL, hneq]
      push_cast
      norm_num

lemma fl32_one : fl32 1 = 1 := by
  have h := fl32_natCast (n := 1) (by norm_num)
  simpa using h

lemma fl32_lt_one {x : ℚ} (hx : 0 < x) (hlt : x < 1 - 1 / 2 ^ 25) :
    fl32 x < 1 := by
  have hx1 : x < 1 := by nlinarith [pow_pos (by norm_num : (0:ℚ) < 2) 25]
  have hL : Int.log 2 x < 0 := by
    have h1 : x < ((2 : ℕ) : ℚ) ^ (0 : ℤ) := by
      push_cast
      norm_num
      exact hx1
    exact (Int.lt_zpow_iff_log_lt (by norm_num) hx).mp h1
  have herr := (fl32_close hx).2
  have hsmall : (2 : ℚ) ^ (Int.log 2 x - 24) ≤ 2 ^ (-25 : ℤ) :=
    zpow_le_zpow_right₀ (by norm_num : (1 : ℚ) ≤ 2) (by omega)
  have h25 : (2 : ℚ) ^ (-25 : ℤ) = 1 / 2 ^ 25 := by norm_num
  rw [h25] at hsmall
  calc fl32 x ≤ x + 2 ^ (Int.log 2 x - 24) := herr
    _ ≤ x + 1 / 2 ^ 25 := by linarith
    _ < 1 := by linarith

/-- Mirror of `jaccard` (lines 29-36) at `float` precision: the two integer
counts are cast to `float`, divided as `float`s, and subtracted from `1.f`,
each step rounding to nearest (ties even).  `TiktokKnn.jaccard` is the
infinitely precise value of the same expression; `jaccardF` is what the
program's `float` actually holds. -/
def jaccardF (A B : Finset String) : ℚ :=
  if A = ∅ ∧ B = ∅ then 0
  else
    let inter : ℕ := (A ∩ B).card
    let uni : ℕ := A.card + B.card - inter
    fl32 (1 - fl32 (fl32 (inter : ℚ) / fl32 (uni : ℚ)))

lemma jaccardF_eq (A B : Finset String) (h : ¬(A = ∅ ∧ B = ∅)) :
    jaccardF A B = fl32 (1 - fl32 (fl32 (((A ∩ B).card : ℕ) : ℚ)
      / fl32 ((((A ∪ B).card : ℕ)) : ℚ))) := by
  simp only [jaccardF, if_neg h, uni_eq_card_union]

lemma card_union_pos (A B : Finset String) (h : ¬(A = ∅ ∧ B = ∅)) :
    0 < (A ∪ B).card := by
  rcases Finset.eq_empty_or_nonempty (A ∪ B) with he | hne
  · exact absurd (Finset.union_eq_empty.mp he) h
  · exact Finset.card_pos.mpr hne

lemma jaccardF_nonneg_le_one (A B : Finset String) :
    0 ≤ jaccardF A B ∧ jaccardF A B ≤ 1 := by
  by_cases h : A = ∅ ∧ B = ∅
  · rw [jaccardF, if_pos h]
    norm_num
  · rw [jaccardF_eq A B h]
    have hU1 : (1 : ℚ) ≤ (((A ∪ B).card : ℕ) : ℚ) := by
      exact_mod_cast card_union_pos A B h
    have hIU : (((A ∩ B).card : ℕ) : ℚ) ≤ (((A ∪ B).card : ℕ) : ℚ) := by
      exact_mod_cast card_inter_le_card_union A B
    have hfU : 0 < fl32 (((A ∪ B).card : ℕ) : ℚ) := fl32_pos (by linarith)
    have hq0 : 0 ≤ fl32 (((A ∩ B).card : ℕ) : ℚ)
        / fl32 (((A ∪ B).card : ℕ) : ℚ) :=
      div_nonneg (fl32_nonneg _) (le_of_lt hfU)
    have hq1 : fl32 (((A ∩ B).card : ℕ) : ℚ)
        / fl32 (((A ∪ B).card : ℕ) : ℚ) ≤ 1 :=
      (div_le_one hfU).mpr (fl32_mono hIU)
    have hf0 : 0 ≤ fl32 (fl32 (((A ∩ B).card : ℕ) : ℚ)
        / fl32 (((A ∪ B).card : ℕ) : ℚ)) := fl32_nonneg _
    have hf1 : fl32 (fl32 (((A ∩ B).card : ℕ) : ℚ)
        / fl32 (((A ∪ B).card : ℕ) : ℚ)) ≤ 1 := by
      calc fl32 (fl32 (((A ∩ B).card : ℕ) : ℚ)
          / fl32 (((A ∪ B).card : ℕ) : ℚ)) ≤ fl32 1 := fl32_mono hq1
        _ = 1 := fl32_one
    refine ⟨fl32_nonneg _, ?_⟩
    calc fl32 (1 - fl32 (fl32 (((A ∩ B).card : ℕ) : ℚ)
        / fl32 (((A ∪ B).card : ℕ) : ℚ))) ≤ fl32 1 := fl32_mono (by linarith)
      _ = 1 := fl32_one

lemma jaccardF_of_eq {A B : Finset String} (h : A = B) : jaccardF A B = 0 := by
  subst h
  by_cases hA : A = ∅
  · subst hA
    rw [jaccardF, if_pos ⟨rfl, rfl⟩]
  · rw [jaccardF_eq A A (by tauto)]
    simp only [Finset.inter_self, Finset.union_self]
    have hpos : (0 : ℚ) < ((A.card : ℕ) : ℚ) := by
      exact_mod_cast Finset.card_pos.mpr (Finset.nonempty_iff_ne_empty.mpr hA)
    rw [div_self (ne_of_gt (fl32_pos hpos)), fl32_one, sub_self, fl32_zero]

lemma jaccardF_of_disjoint {A B : Finset String} (hint : A ∩ B = ∅)
    (hne : A ≠ ∅ ∨ B ≠ ∅) : jaccardF A B = 1 := by
  have h : ¬(A = ∅ ∧ B = ∅) := by tauto
  rw [jaccardF_eq A B h, hint]
  simp only [Finset.card_empty, Nat.cast_zero, fl32_zero, zero_div, sub_zero,
    fl32_one]

lemma jaccardF_small_eq_zero_imp {A B : Finset String}
    (hsmall : (A ∪ B).card < 2 ^ 24) (h0 : jaccardF A B = 0) : A = B := by
  by_cases h : A = ∅ ∧ B = ∅
  · rw [h.1, h.2]
  · by_contra hAB
    have hIle : (A ∩ B).card ≤ (A ∪ B).card := card_inter_le_card_union A B
    have hflI : fl32 (((A ∩ B).card : ℕ) : ℚ) = (((A ∩ B).card : ℕ) : ℚ) :=
      fl32_natCast (by omega)
    have hflU : fl32 (((A ∪ B).card : ℕ) : ℚ) = (((A ∪ B).card : ℕ) : ℚ) :=
      fl32_natCast (by omega)
    rw [jaccardF_eq A B h, hflI, hflU] at h0
    have hU1 : 0 < (A ∪ B).card := card_union_pos A B h
    have hlt : (A ∩ B).card < (A ∪ B).card := by
      rcases lt_or_eq_of_le hIle with h' | h'
      · exact h'
      · exact absurd ((inter_eq_union_iff A B).mp
          (Finset.eq_of_subset_of_card_le Finset.inter_subset_union
            (le_of_eq h'.symm))) hAB
    set Iq : ℚ := (((A ∩ B).card : ℕ) : ℚ) with hIq
    set Uq : ℚ := (((A ∪ B).card : ℕ) : ℚ) with hUq
    have hU0 : (1 : ℚ) ≤ Uq := by rw [hUq]; exact_mod_cast hU1
    have hUlt : Uq < 2 ^ 24 := by rw [hUq]; exact_mod_cast hsmall
    have hI0 : (0 : ℚ) ≤ Iq := Nat.cast_nonneg _
    have hIle1 : Iq ≤ Uq - 1 := by
      have h'' : ((((A ∩ B).card + 1 : ℕ)) : ℚ) ≤ (((A ∪ B).card : ℕ) : ℚ) := by
        exact_mod_cast (by omega : (A ∩ B).card + 1 ≤ (A ∪ B).card)
      push_cast at h''
      linarith
    have hUpos : (0 : ℚ) < Uq := by linarith
    have hq1 : Iq / Uq ≤ (Uq - 1) / Uq := (div_le_div_right hUpos).mpr hIle1
    have hq2 : (Uq - 1) / Uq = 1 - 1 / Uq := by field_simp
    have h1U : 1 / 2 ^ 25 < 1 / Uq := by
      apply one_div_lt_one_div_of_lt hUpos
      calc Uq < 2 ^ 24 := hUlt
        _ < 2 ^ 25 := by norm_num
    have hqlt : Iq / Uq < 1 - 1 / 2 ^ 25 := by linarith
    rcases eq_or_lt_of_le hI0 with hI | hI
    · rw [← hI, zero_div, fl32_zero, sub_zero, fl32_one] at h0
      norm_num at h0
    · have hq0 : 0 < Iq / Uq := div_pos hI hUpos
      have hfq : fl32 (Iq / Uq) < 1 := fl32_lt_one hq0 hqlt
      have hpos : 0 < fl32 (1 - fl32 (Iq / Uq)) := fl32_pos (by linarith)
      rw [h0] at hpos
      exact lt_irrefl 0 hpos

lemma jaccardF_small_eq_one_imp {A B : Finset String}
    (hsmall : (A ∪ B).card < 2 ^ 24) (h1 : jaccardF A B = 1) :
    A ∩ B = ∅ ∧ (A ≠ ∅ ∨ B ≠ ∅) := by
  by_cases h : A = ∅ ∧ B = ∅
  · rw [jaccardF, if_pos h] at h1
    norm_num at h1
  · refine ⟨?_, by tauto⟩
    by_contra hne
    have hI1 : 1 ≤ (A ∩ B).card :=
      Finset.card_pos.mpr (Finset.nonempty_iff_ne_empty.mpr hne)
    have hIle : (A ∩ B).card ≤ (A ∪ B).card := card_inter_le_card_union A B
    have hflI : fl32 (((A ∩ B).card : ℕ) : ℚ) = (((A ∩ B).card : ℕ) : ℚ) :=
      fl32_natCast (by omega)
    have hflU : fl32 (((A ∪ B).card : ℕ) : ℚ) = (((A ∪ B).card : ℕ) : ℚ) :=
      fl32_natCast (by omega)
    rw [jaccardF_eq A B h, hflI, hflU] at h1
    set Iq : ℚ := (((A ∩ B).card : ℕ) : ℚ) with hIq
    set Uq : ℚ := (((A ∪ B).card : ℕ) : ℚ) with hUq
    have hI1' : (1 : ℚ) ≤ Iq := by rw [hIq]; exact_mod_cast hI1
    have hU1 : (1 : ℚ) ≤ Uq := by
      rw [hUq]; exact_mod_cast card_union_pos A B h
    have hUlt : Uq < 2 ^ 24 := by rw [hUq]; exact_mod_cast hsmall
    have hUpos : (0 : ℚ) < Uq := by linarith
    have hIU : Iq ≤ Uq := by rw [hIq, hUq]; exact_mod_cast hIle
    have hq_ge : 1 / Uq ≤ Iq / Uq := (div_le_div_right hUpos).mpr hI1'
    have h1U : 1 / 2 ^ 24 < 1 / Uq := one_div_lt_one_div_of_lt hUpos hUlt
    have hq_gt : 1 / 2 ^ 24 < Iq / Uq := by linarith
    have hq_pos : 0 < Iq / Uq := by
      have : (0 : ℚ) < 1 / 2 ^ 24 := by norm_num
      linarith
    have hq_le1 : Iq / Uq ≤ 1 := (div_le_one hUpos).mpr hIU
    have herr := (fl32_close hq_pos).1
    have hLle : (2 : ℚ) ^ (Int.log 2 (Iq / Uq)) ≤ Iq / Uq :=
      two_zpow_log_le hq_pos
    have hbound : (2 : ℚ) ^ (Int.log 2 (Iq / Uq) - 24)
        ≤ (Iq / Uq) / 2 ^ (24 : ℤ) := by
      rw [zpow_sub₀ (by norm_num : (2 : ℚ) ≠ 0)]
      exact (div_le_div_right (two_zpow_pos _)).mpr hLle
    have h224 : (2 : ℚ) ^ (24 : ℤ) = 16777216 := by norm_num
    rw [h224] at hbound
    have hf_ge : Iq / Uq - (Iq / Uq) / 16777216 ≤ fl32 (Iq / Uq) := by
      linarith
    have hf_gt : 1 / 2 ^ 25 < fl32 (Iq / Uq) := by linarith
    have hf_le1 : fl32 (Iq / Uq) ≤ 1 := by
      calc fl32 (Iq / Uq) ≤ fl32 1 := fl32_mono hq_le1
        _ = 1 := fl32_one
    rcases eq_or_lt_of_le hf_le1 with hfeq | hflt
    · rw [hfeq, sub_self, fl32_zero] at h1
      norm_num at h1
    · have hy_pos : 0 < 1 - fl32 (Iq / Uq) := by linarith
      have hy_lt : 1 - fl32 (Iq / Uq) < 1 - 1 / 2 ^ 25 := by linarith
      have hlt1 := fl32_lt_one hy_pos hy_lt
      rw [h1] at hlt1
      exact lt_irrefl 1 hlt1

/-- Arbitrarily many distinct tags: `tagOfNat n` is the string of `n`
copies of the letter `a`. -/
def tagOfNat (n : ℕ) : String := String.mk (List.replicate n 'a')

lemma tagOfNat_injective : Function.Injective tagOfNat := by
  intro m n h
  have hdata : List.replicate m 'a' = List.replicate n 'a' :=
    congrArg String.data h
  have hlen := congrArg List.length hdata
  simpa using hlen

lemma fl32_pow24_succ : fl32 (((2 ^ 24 + 1 : ℕ)) : ℚ) = ((2 ^ 24 : ℕ) : ℚ) := by
  have hx : (0 : ℚ) < ((2 ^ 24 + 1 : ℕ) : ℚ) := by positivity
  have hL : Int.log 2 (((2 ^ 24 + 1 : ℕ) : ℚ)) = 24 := by
    have hge : ((2 : ℕ) : ℚ) ^ (24 : ℤ) ≤ ((2 ^ 24 + 1 : ℕ) : ℚ) := by
      push_cast
      norm_num
    have hlt' : ((2 ^ 24 + 1 : ℕ) : ℚ) < ((2 : ℕ) : ℚ) ^ (25 : ℤ) := by
      push_cast
      norm_num
    have h1 := (Int.zpow_le_iff_le_log (by norm_num) hx).mp hge
    have h2 := (Int.lt_zpow_iff_log_lt (by norm_num) hx).mp hlt'
    omega
  rw [fl32_of_pos hx, hL]
  have hdiv : ((2 ^ 24 + 1 : ℕ) : ℚ) / 2 ^ ((24 : ℤ) - 23) = 8388608 + 1 / 2 := by
    push_cast
    norm_num
  rw [hdiv]
  have hfloor : ⌊(8388608 + 1 / 2 : ℚ)⌋ = 8388608 := by
    norm_num [Int.floor_eq_iff]
  have hround : roundInt (8388608 + 1 / 2) = 8388608 := by
    simp only [roundInt, hfloor]
    norm_num
  rw [hround]
  push_cast
  norm_num

/-- Claim C2 as stated is refuted at this input: with `|A ∩ B| = 2^24` and
`|A ∪ B| = 2^24 + 1` the two counts round to the same `float`
(`2^24 + 1` has 25 significant bits and rounds down, ties-to-even), the
quotient is exactly `1.0f`, and the program returns distance `0` for two
sets that differ — against the claim's `distance = 0` iff `A = B`. -/
theorem jaccardF_zero_for_unequal_sets :
    jaccardF ((Finset.range (2 ^ 24 + 1)).image tagOfNat)
      ((Finset.range (2 ^ 24)).image tagOfNat) = 0 ∧
    (Finset.range (2 ^ 24 + 1)).image tagOfNat ≠
      (Finset.range (2 ^ 24)).image tagOfNat := by
  have hsub : (Finset.range (2 ^ 24)).image tagOfNat ⊆
      (Finset.range (2 ^ 24 + 1)).image tagOfNat :=
    Finset.image_subset_image (Finset.range_subset.mpr (by omega))
  have hcardA : ((Finset.range (2 ^ 24 + 1)).image tagOfNat).card
      = 2 ^ 24 + 1 := by
    rw [Finset.card_image_of_injective _ tagOfNat_injective, Finset.card_range]
  have hcardB : ((Finset.range (2 ^ 24)).image tagOfNat).card = 2 ^ 24 := by
    rw [Finset.card_image_of_injective _ tagOfNat_injective, Finset.card_range]
  have hAB : (Finset.range (2 ^ 24 + 1)).image tagOfNat ≠
      (Finset.range (2 ^ 24)).image tagOfNat := by
    intro heq
    rw [heq, hcardB] at hcardA
    omega
  refine ⟨?_, hAB⟩
  have hne : ¬((Finset.range (2 ^ 24 + 1)).image tagOfNat = ∅ ∧
      (Finset.range (2 ^ 24)).image tagOfNat = ∅) := by
    rintro ⟨h1, -⟩
    rw [h1] at hcardA
    simp at hcardA
  rw [jaccardF_eq _ _ hne, Finset.inter_eq_right.mpr hsub,
    Finset.union_eq_left.mpr hsub, hcardA, hcardB, fl32_natCast le_rfl,
    fl32_pow24_succ, div_self (by positivity : ((2 ^ 24 : ℕ) : ℚ) ≠ 0),
    fl32_one, sub_self, fl32_zero]

/-- Claim C2 as amended: the float Jaccard distance always lies in `[0, 1]`,
is `0` for identical sets (including the both-empty case, by the explicit
guard) and `1` for disjoint sets at least one of which is non-empty; and
whenever the union's cardinality is below `2^24` (within `float`'s 24-bit
significand, which covers every realisable dataset), the converses hold as
well: the distance is `0` exactly for identical sets and `1` exactly for
disjoint ones.  Beyond that size rounding can collapse distinct
cardinalities, which is what the original unconditional iffs miss. -/
theorem jaccardF_range_and_extremes (A B : Finset String) :
    0 ≤ jaccardF A B ∧ jaccardF A B ≤ 1 ∧
    (A = B → jaccardF A B = 0) ∧
    (A ∩ B = ∅ ∧ (A ≠ ∅ ∨ B ≠ ∅) → jaccardF A B = 1) ∧
    ((A ∪ B).card < 2 ^ 24 →
      ((jaccardF A B = 0 ↔ A = B) ∧
       (jaccardF A B = 1 ↔ A ∩ B = ∅ ∧ (A ≠ ∅ ∨ B ≠ ∅)))) :=
  ⟨(jaccardF_nonneg_le_one A B).1, (jaccardF_nonneg_le_one A B).2,
    fun h => jaccardF_of_eq h, fun h => jaccardF_of_disjoint h.1 h.2,
    fun hsmall =>
      ⟨⟨jaccardF_small_eq_zero_imp hsmall, fun h => jaccardF_of_eq h⟩,
       ⟨jaccardF_small_eq_one_imp hsmall,
        fun h => jaccardF_of_disjoint h.1 h.2⟩⟩⟩

/-- Concrete instantiation of the amended claim C2's theorem: identical
singleton sets are at distance `0`. -/
theorem jaccardF_range_and_extremes_witness :
    jaccardF {"cat"} {"cat"} = 0 :=
  (jaccardF_range_and_extremes {"cat"} {"cat"}).2.2.1 rfl

/-- `recAt records i` models the vector access `videos[i]` (lines 105, 122,
139).  Out-of-range access is undefined behaviour in C++; the model returns
the default record there, and claim C9 shows that branch is never taken. -/
def recAt (records : List Record) (i : ℕ) : Record :=
  (records.get? i).getD default

/-- Mirror of step 3 (lines 101-107): one `Node` per record, pairing the
Jaccard distance of the query against this record's tags (argument order
`jaccard(qTags, videos[i].tags)`) with the record's position. -/
def computeNeighbors (records : List Record) (q : Finset String) : List Node :=
  (List.range records.length).map (fun i => ⟨jaccard q (recAt records i).tags, i⟩)

/-- The comparator of lines 112-116 (`a.dist < b.dist`) induces this
nonstrict order on the sorted output. -/
abbrev distLE (a b : Node) : Prop := a.dist ≤ b.dist

instance : IsTotal Node distLE := ⟨fun a b => le_total a.dist b.dist⟩

instance : IsTrans Node distLE := ⟨fun a b c hab hbc => le_trans hab hbc⟩

/-- Mirror of lines 109-116: clamp `K` to the number of neighbours, then
`nth_element` + `sort` of the first `K` slots; modelled as a full sort by
distance followed by `take` (see the header comment). -/
def selectTopK (nbrs : List Node) (k : ℕ) : List Node :=
  (nbrs.insertionSort distLE).take (min k nbrs.length)

lemma map_dist_orderedInsert (a : Node) (l : List Node) :
    (l.orderedInsert distLE a).map Node.dist
      = (l.map Node.dist).orderedInsert (· ≤ ·) a.dist := by
  induction l with
  | nil => rfl
  | cons b t ih =>
    simp only [List.orderedInsert, List.map_cons]
    by_cases h : a.dist ≤ b.dist
    · rw [if_pos h, if_pos h]
      simp
    · rw [if_neg h, if_neg h]
      simp [ih]

lemma map_dist_insertionSort (l : List Node) :
    (l.insertionSort distLE).map Node.dist
      = (l.map Node.dist).insertionSort (· ≤ ·) := by
  induction l with
  | nil => rfl
  | cons a t ih =>
    simp only [List.insertionSort, List.map_cons, map_dist_orderedInsert, ih]

/-- Claim C1: for every neighbour list and every requested `K ≥ 1`, the
top-K selection has length `min K N`, its distances are sorted ascending,
and its distance list is exactly the first `min K N` entries of the
ascending arrangement of all `N` distances (so its multiset of distances is
the `min K N` smallest); in particular `K > N` is clamped to `N`, never an
error. -/
theorem selectTopK_spec (nbrs : List Node) (k : ℕ) (hk : 1 ≤ k) :
    (selectTopK nbrs k).length = min k nbrs.length ∧
    ((selectTopK nbrs k).map Node.dist).Sorted (· ≤ ·) ∧
    (selectTopK nbrs k).map Node.dist
      = ((nbrs.map Node.dist).insertionSort (· ≤ ·)).take (min k nbrs.length) ∧
    (nbrs.length < k → (selectTopK nbrs k).length = nbrs.length) := by
  have hperm := (List.perm_insertionSort distLE nbrs).length_eq
  have hlen : (selectTopK nbrs k).length = min k nbrs.length := by
    simp only [selectTopK, List.length_take, hperm]
    omega
  have h3 : (selectTopK nbrs k).map Node.dist
      = ((nbrs.map Node.dist).insertionSort (· ≤ ·)).take (min k nbrs.length) := by
    rw [selectTopK, List.map_take, map_dist_insertionSort]
  refine ⟨hlen, ?_, h3, fun h => by rw [hlen]; omega⟩
  rw [h3]
  exact List.Pairwise.sublist (List.take_sublist _ _)
    (List.sorted_insertionSort _ _)

/-- Concrete instantiation of claim C1's theorem at `K = 1` over two nodes. -/
theorem selectTopK_spec_witness :
    (selectTopK [⟨(1 : ℚ), 0⟩, ⟨0, 1⟩] 1).length = min 1 2 :=
  (selectTopK_spec [⟨(1 : ℚ), 0⟩, ⟨0, 1⟩] 1 (by decide)).1

/-- Two's-complement wraparound at `long long` width: what the additions of
lines 123-125 produce when the 64-bit sum overflows.  (Signed overflow is
undefined behaviour in C++; on the two's-complement targets this program
runs on, the addition wraps, which is the behaviour modelled here.) -/
def wrap64 (x : Int) : Int :=
  (x + 2 ^ 63) % 2 ^ 64 - 2 ^ 63

/-- One `sum += v` step of lines 123-125 at `long long` width. -/
def addLL (a b : Int) : Int := wrap64 (a + b)

/-- The accumulation loop of lines 120-126 for one metric, in loop order. -/
def sumLL (l : List Int) : Int := l.foldl addLL 0

/-- Mirror of step 4 (lines 120-130): sum each of the three metrics over the
selected neighbours (looking the record up by stored index) at `long long`
width, and divide each sum by `K = selected.length`.  C++ `/` on `long long`
truncates toward zero, which is `Int.tdiv`. -/
def aggregate (selected : List Node) (records : List Record) : Int × Int × Int :=
  let K : Int := selected.length
  let sumViews := sumLL (selected.map (fun n => (recAt records n.idx).views))
  let sumLikes := sumLL (selected.map (fun n => (recAt records n.idx).likes))
  let sumComments :=
    sumLL (selected.map (fun n => (recAt records n.idx).comments))
  (sumViews.tdiv K, sumLikes.tdiv K, sumComments.tdiv K)

lemma wrap64_eq_self {x : Int} (h0 : -(2 ^ 63) ≤ x) (h1 : x < 2 ^ 63) :
    wrap64 x = x := by
  have hm : (x + 2 ^ 63) % 2 ^ 64 = x + 2 ^ 63 :=
    Int.emod_eq_of_lt (by linarith) (by linarith)
  rw [wrap64, hm]
  ring

lemma foldl_addLL_eq (l : List Int) :
    ∀ acc : Int, 0 ≤ acc → (∀ x ∈ l, 0 ≤ x) → acc + l.sum ≤ 2 ^ 63 - 1 →
      l.foldl addLL acc = acc + l.sum := by
  induction l with
  | nil => intro acc _ _ _; simp
  | cons v t ih =>
    intro acc hacc hnn hb
    have hv : 0 ≤ v := hnn v (List.mem_cons_self _ _)
    have htn : ∀ x ∈ t, 0 ≤ x := fun x hx => hnn x (List.mem_cons_of_mem _ hx)
    have hts : 0 ≤ t.sum := List.sum_nonneg htn
    rw [List.sum_cons] at hb
    have hav : addLL acc v = acc + v := by
      rw [addLL, wrap64_eq_self (by linarith) (by linarith)]
    rw [List.foldl_cons, hav,
      ih (acc + v) (by linarith) htn (by linarith), List.sum_cons]
    ring

lemma sumLL_eq_sum {l : List Int} (hnn : ∀ x ∈ l, 0 ≤ x)
    (hb : l.sum ≤ 2 ^ 63 - 1) : sumLL l = l.sum := by
  have h := foldl_addLL_eq l 0 le_rfl hnn (by linarith)
  simpa [sumLL] using h

lemma tdiv_eq_fdiv_of_nonneg {a b : Int} (ha : 0 ≤ a) (hb : 0 ≤ b) :
    a.tdiv b = a.fdiv b := by
  rw [Int.tdiv_eq_ediv ha hb, Int.fdiv_eq_ediv _ hb]

lemma recAt_mem {records : List Record} {i : ℕ} (h : i < records.length) :
    recAt records i ∈ records := by
  rw [recAt, List.get?_eq_get h]
  exact List.get_mem records i h

/-- Two loadable records (both metric values are within `stoll`'s range)
whose views sum to `10^19 > 2^63 - 1`. -/
def overflowRecs : List Record :=
  [⟨"a", ∅, 5000000000000000000, 0, 0⟩, ⟨"b", ∅, 5000000000000000000, 0, 0⟩]

/-- Claim C4 as stated is refuted by this input: two records with
non-negative views of `5·10^18` each and `K = 2` overflow the 64-bit
running sum (lines 120-126), so the program's wrapped quotient is negative
and differs from the floor average `5·10^18` the claim promises. -/
theorem aggregate_overflow :
    aggregate [⟨0, 0⟩, ⟨0, 1⟩] overflowRecs = (-4223372036854775808, 0, 0) ∧
    Int.fdiv ((([⟨0, 0⟩, ⟨0, 1⟩] : List Node).map
      (fun n => (recAt overflowRecs n.idx).views)).sum) 2
        = 5000000000000000000 ∧
    aggregate [⟨0, 0⟩, ⟨0, 1⟩] overflowRecs ≠ (5000000000000000000, 0, 0) :=
  ⟨by decide, by decide, by decide⟩

/-- Claim C4 as amended: for every selection of `K ≥ 1` neighbours whose
indices are in bounds, over records with non-negative metrics, and whose
three metric sums each fit in `long long` (at most `2^63 - 1`, so the
64-bit accumulation does not overflow), `aggregate` returns for each metric
independently the floor of (sum over the K selected records) / K —
unweighted floor-division averaging; and for `K = 1` it returns the single
selected record's three metrics unchanged. -/
theorem aggregate_spec (selected : List Node) (records : List Record)
    (hk : 1 ≤ selected.length)
    (hidx : ∀ n ∈ selected, n.idx < records.length)
    (hnn : ∀ r ∈ records, 0 ≤ r.views ∧ 0 ≤ r.likes ∧ 0 ≤ r.comments)
    (hbv : (selected.map (fun n => (recAt records n.idx).views)).sum
      ≤ 2 ^ 63 - 1)
    (hbl : (selected.map (fun n => (recAt records n.idx).likes)).sum
      ≤ 2 ^ 63 - 1)
    (hbc : (selected.map (fun n => (recAt records n.idx).comments)).sum
      ≤ 2 ^ 63 - 1) :
    aggregate selected records =
      (Int.fdiv ((selected.map (fun n => (recAt records n.idx).views)).sum)
         selected.length,
       Int.fdiv ((selected.map (fun n => (recAt records n.idx).likes)).sum)
         selected.length,
       Int.fdiv ((selected.map (fun n => (recAt records n.idx).comments)).sum)
         selected.length) ∧
    (∀ n, selected = [n] → aggregate selected records =
      ((recAt records n.idx).views, (recAt records n.idx).likes,
        (recAt records n.idx).comments)) := by
  have hmem : ∀ n ∈ selected, recAt records n.idx ∈ records :=
    fun n hn => recAt_mem (hidx n hn)
  have hKnn : (0 : Int) ≤ (selected.length : Int) := Int.natCast_nonneg _
  have hptw : ∀ f : Record → Int, (∀ r ∈ records, 0 ≤ f r) →
      ∀ x ∈ selected.map (fun n => f (recAt records n.idx)), 0 ≤ x := by
    intro f hf x hx
    obtain ⟨n, hn, rfl⟩ := List.mem_map.mp hx
    exact hf _ (hmem n hn)
  have hv' := hptw (fun r => r.views) (fun r hr => (hnn r hr).1)
  have hl' := hptw (fun r => r.likes) (fun r hr => (hnn r hr).2.1)
  have hc' := hptw (fun r => r.comments) (fun r hr => (hnn r hr).2.2)
  have hev := sumLL_eq_sum hv' hbv
  have hel := sumLL_eq_sum hl' hbl
  have hec := sumLL_eq_sum hc' hbc
  constructor
  · have hvnn := List.sum_nonneg hv'
    have hlnn := List.sum_nonneg hl'
    have hcnn := List.sum_nonneg hc'
    simp only [aggregate, hev, hel, hec]
    rw [tdiv_eq_fdiv_of_nonneg hvnn hKnn, tdiv_eq_fdiv_of_nonneg hlnn hKnn,
      tdiv_eq_fdiv_of_nonneg hcnn hKnn]
  · rintro n rfl
    have hone : ∀ v : Int, 0 ≤ v → v ≤ 2 ^ 63 - 1 → sumLL [v] = v := by
      intro v h0 h1
      have h2 := sumLL_eq_sum (l := [v])
        (by intro x hx; rw [List.mem_singleton] at hx; subst hx; exact h0)
        (by simpa using h1)
      simpa using h2
    have hmv := hnn _ (hmem n (List.mem_cons_self _ _))
    simp only [List.map_cons, List.map_nil, List.sum_cons, List.sum_nil,
      add_zero] at hbv hbl hbc
    simp only [aggregate, List.map_cons, List.map_nil, List.length_cons,
      List.length_nil]
    rw [hone _ hmv.1 hbv, hone _ hmv.2.1 hbl, hone _ hmv.2.2 hbc]
    norm_num [Int.tdiv_one]

/-- Concrete instantiation of the amended claim C4's theorem: one selected
neighbour, one record. -/
theorem aggregate_spec_witness :
    aggregate [⟨0, 0⟩] [⟨"r", {"t"}, 7, 5, 3⟩] =
      ((recAt [⟨"r", {"t"}, 7, 5, 3⟩] 0).views,
       (recAt [⟨"r", {"t"}, 7, 5, 3⟩] 0).likes,
       (recAt [⟨"r", {"t"}, 7, 5, 3⟩] 0).comments) :=
  (aggregate_spec [⟨0, 0⟩] [⟨"r", {"t"}, 7, 5, 3⟩] (by decide)
    (by decide) (by decide) (by decide) (by decide) (by decide)).2 ⟨0, 0⟩ rfl

/-- Claim C9: every neighbour produced by the distance step stores an index
strictly below the number of records, and every neighbour the selection
step hands to aggregation/reporting still does, so each record lookup
(`videos[nbrs[i].idx]`) is in bounds: `get?` at that index is `some`. -/
theorem neighbor_idx_in_bounds (records : List Record) (q : Finset String)
    (k : ℕ) :
    (∀ n ∈ computeNeighbors records q, n.idx < records.length) ∧
    (∀ n ∈ selectTopK (computeNeighbors records q) k,
      (records.get? n.idx).isSome) := by
  have h1 : ∀ n ∈ computeNeighbors records q, n.idx < records.length := by
    intro n hn
    simp only [computeNeighbors, List.mem_map, List.mem_range] at hn
    obtain ⟨i, hi, rfl⟩ := hn
    exact hi
  refine ⟨h1, fun n hn => ?_⟩
  have hn' : n ∈ computeNeighbors records q := by
    have hmem := List.mem_of_mem_take hn
    rwa [List.mem_insertionSort] at hmem
  rw [List.get?_eq_get (h1 n hn')]
  rfl

/-- Concrete instantiation of claim C9's theorem. -/
theorem neighbor_idx_in_bounds_witness :
    (([(⟨"r", ∅, 7, 5, 3⟩ : Record)] : List Record).get?
      (Node.idx ⟨0, 0⟩)).isSome :=
  (neighbor_idx_in_bounds [⟨"r", ∅, 7, 5, 3⟩] ∅ 1).2 ⟨0, 0⟩ (by decide)

/-- The three records of the spec's worked scenario (§8). -/
def recA : Record := ⟨"A", {"cat", "dance"}, 100, 10, 1⟩

/-- Scenario record B. -/
def recB : Record := ⟨"B", {"cat"}, 200, 20, 2⟩

/-- Scenario record C. -/
def recC : Record := ⟨"C", {"dog"}, 50, 5, 0⟩

/-- Claim C5: on the three-record scenario dataset with query `{cat}` and
`K = 2`, the pipeline computes distances `A = 1/2`, `B = 0`, `C = 1`,
selects `[B (0), A (1/2)]` in that order, and aggregates to the prediction
`views = 150`, `likes = 15`, `comments = 1`. -/
theorem scenario_cat_query :
    computeNeighbors [recA, recB, recC] {"cat"} =
      [⟨1/2, 0⟩, ⟨0, 1⟩, ⟨1, 2⟩] ∧
    selectTopK (computeNeighbors [recA, recB, recC] {"cat"}) 2 =
      [⟨0, 1⟩, ⟨1/2, 0⟩] ∧
    (selectTopK (computeNeighbors [recA, recB, recC] {"cat"}) 2).map
      (fun n => (recAt [recA, recB, recC] n.idx).id) = ["B", "A"] ∧
    aggregate (selectTopK (computeNeighbors [recA, recB, recC] {"cat"}) 2)
      [recA, recB, recC] = (150, 15, 1) :=
  ⟨by with_unfolding_all rfl, by with_unfolding_all rfl,
   by with_unfolding_all rfl, by with_unfolding_all rfl⟩

/-- Tag-set construction (lines 79 and 93): split on `';'` and insert every
token into an `unordered_set<string>`. -/
def tagsOf (s : String) : Finset String :=
  (split s ';').toFinset

/-- Model of `std::stoll`: skip leading whitespace, accept an optional sign,
then a non-empty run of decimal digits; `none` models the
`std::invalid_argument` throw when no digits are found.  (Out-of-range
throws are not modelled: metrics stay within `long long` in this study.) -/
def stoll (s : String) : Option Int :=
  let cs := s.data.dropWhile (fun c => c.isWhitespace)
  let signed : Int × List Char :=
    match cs with
    | '-' :: t => (-1, t)
    | '+' :: t => (1, t)
    | _ => (1, cs)
  let ds := signed.2.takeWhile (fun c => c.isDigit)
  if ds.isEmpty then none
  else some (signed.1 *
    ((ds.foldl (fun acc c => 10 * acc + (c.toNat - 48)) (0 : ℕ) : ℕ) : Int))

/-- What the body of the load loop (lines 72-84) does with one line:
`skip` = dropped silently (empty line, or fewer than 5 non-empty fields);
`crash` = `std::stoll` throws (uncaught, terminates the process);
`record r` = `r` is appended to `videos`. -/
inductive RowOutcome where
  | skip
  | crash
  | record (r : Record)
deriving DecidableEq

/-- One iteration of the load loop (lines 72-84). -/
def parseLine (line : String) : RowOutcome :=
  if line.isEmpty then .skip
  else
    let cols := split line ','
    if cols.length < 5 then .skip
    else
      match stoll (cols.getD 2 ""), stoll (cols.getD 3 ""),
          stoll (cols.getD 4 "") with
      | some v, some l, some c =>
          .record ⟨cols.getD 0 "", tagsOf (cols.getD 1 ""), v, l, c⟩
      | _, _, _ => .crash

/-- The whole load loop over the (post-header) lines; `none` models the
process dying on an uncaught `std::stoll` exception mid-loop. -/
def loadRows : List String → Option (List Record)
  | [] => some []
  | l :: ls =>
    match parseLine l with
    | .skip => loadRows ls
    | .crash => none
    | .record r => (loadRows ls).map (fun rs => r :: rs)

/-- `isdigit(line[0])` on the heuristic of line 65; `false` on an empty
line (the C++ code guards with `!line.empty()` first). -/
def startsWithDigit (s : String) : Bool :=
  match s.data with
  | [] => false
  | c :: _ => c.isDigit

/-- Header handling (lines 63-70): drop the first line exactly when it is
non-empty and does not start with a digit; otherwise rewind and treat it as
data. -/
def body (lines : List String) : List String :=
  match lines with
  | [] => []
  | first :: rest =>
    if !first.isEmpty && !startsWithDigit first then rest
    else first :: rest

/-- The ways a run can fail, by exit path: `invalidK` (line 47-50),
`cantOpen` (lines 55-58), `emptyData` (lines 85-88), `emptyQuery`
(lines 94-97), `crash` (uncaught `std::stoll` exception). -/
inductive RunError where
  | invalidK
  | cantOpen
  | emptyData
  | emptyQuery
  | crash
deriving DecidableEq

/-- The spec's `LoadError` class (§7): dataset cannot be opened, or zero
usable records after filtering. -/
def isLoadError (e : RunError) : Prop :=
  e = RunError.cantOpen ∨ e = RunError.emptyData

/-- The spec's `InvalidArgument` class (§7): `K <= 0`, or empty query tag
set. -/
def isInvalidArgument (e : RunError) : Prop :=
  e = RunError.invalidK ∨ e = RunError.emptyQuery

/-- Steps 1 of `main` (lines 54-88): open the file (`none` = cannot open),
apply the header heuristic, run the load loop, and fail when no records
survive. -/
def loadDataset (file : Option (List String)) : Except RunError (List Record) :=
  match file with
  | none => Except.error .cantOpen
  | some lines =>
    match loadRows (body lines) with
    | none => Except.error .crash
    | some [] => Except.error .emptyData
    | some recs => Except.ok recs

/-- `main` (lines 39-148) over its three logical inputs: the parsed `K`
(`atoi(argv[1])`), the dataset file contents (`none` = cannot open), and
the raw query-tags argument.  A `.ok` value is the predicted triple; every
`.error` is a non-zero exit before any report output is produced (all
printing in the source happens after the last validation, lines 134-145). -/
def run (k : Int) (file : Option (List String)) (queryArg : String) :
    Except RunError (Int × Int × Int) :=
  if k ≤ 0 then Except.error .invalidK
  else
    match loadDataset file with
    | Except.error e => Except.error e
    | Except.ok videos =>
      if tagsOf queryArg = ∅ then Except.error .emptyQuery
      else
        Except.ok (aggregate
          (selectTopK (computeNeighbors videos (tagsOf queryArg)) k.toNat)
          videos)

lemma split_ne_empty (s : String) (delim : Char) :
    ∀ t ∈ split s delim, t ≠ "" := by
  intro t ht hteq
  have hp := List.of_mem_filter ht
  subst hteq
  exact absurd hp (by decide)

lemma parseLine_short (l : String) (h : (split l ',').length < 5) :
    parseLine l = RowOutcome.skip := by
  by_cases he : l.isEmpty <;> simp [parseLine, he, h]

lemma parseLine_record (l : String) (r : Record)
    (h : parseLine l = RowOutcome.record r) :
    5 ≤ (split l ',').length ∧ r.id = (split l ',').getD 0 "" ∧ r.id ≠ "" := by
  simp only [parseLine] at h
  by_cases he : l.isEmpty
  · rw [if_pos he] at h; cases h
  · rw [if_neg he] at h
    by_cases hlen : (split l ',').length < 5
    · rw [if_pos hlen] at h; cases h
    · rw [if_neg hlen] at h
      have hlen' : 5 ≤ (split l ',').length := by omega
      rcases hv : stoll ((split l ',').getD 2 "") with _ | v <;> rw [hv] at h <;>
        rcases hl2 : stoll ((split l ',').getD 3 "") with _ | l2 <;>
          rw [hl2] at h <;>
        rcases hc : stoll ((split l ',').getD 4 "") with _ | c <;>
          rw [hc] at h <;> simp only [] at h <;> try (simp at h)
      subst h
      refine ⟨hlen', by simp [List.getD], ?_⟩
      rcases hsp : split l ',' with _ | ⟨c0, t⟩
      · rw [hsp] at hlen'; cases hlen'
      · have hc0 : c0 ∈ split l ',' := by rw [hsp]; exact List.mem_cons_self _ _
        simpa [hsp] using split_ne_empty l ',' c0 hc0

lemma loadRows_skip (l : String) (ls : List String)
    (h : parseLine l = RowOutcome.skip) : loadRows (l :: ls) = loadRows ls := by
  simp [loadRows, h]

lemma loadRows_eq_nil_iff (ls : List String) :
    loadRows ls = some [] ↔ ∀ l ∈ ls, parseLine l = RowOutcome.skip := by
  induction ls with
  | nil => simp [loadRows]
  | cons l t ih =>
    cases hp : parseLine l with
    | skip =>
      rw [loadRows_skip l t hp, ih]
      simp [hp]
    | crash =>
      simp [loadRows, hp]
    | record r =>
      simp only [loadRows, hp]
      cases hrt : loadRows t <;> simp [hp, hrt]

lemma loadRows_mem (ls : List String) (recs : List Record)
    (h : loadRows ls = some recs) :
    ∀ r ∈ recs, ∃ l ∈ ls, parseLine l = RowOutcome.record r := by
  induction ls generalizing recs with
  | nil =>
    simp only [loadRows, Option.some_inj] at h
    subst h
    simp
  | cons l t ih =>
    cases hp : parseLine l with
    | skip =>
      rw [loadRows_skip l t hp] at h
      intro r hr
      obtain ⟨l', hl', hpl⟩ := ih recs h r hr
      exact ⟨l', List.mem_cons_of_mem _ hl', hpl⟩
    | crash => simp [loadRows, hp] at h
    | record r0 =>
      simp only [loadRows, hp] at h
      cases hrt : loadRows t with
      | none => rw [hrt] at h; cases h
      | some rs =>
        rw [hrt] at h
        simp only [Option.map_some', Option.some_inj] at h
        subst h
        intro r hr
        rcases List.mem_cons.mp hr with rfl | hr'
        · exact ⟨l, List.mem_cons_self _ _, hp⟩
        · obtain ⟨l', hl', hpl⟩ := ih rs hrt r hr'
          exact ⟨l', List.mem_cons_of_mem _ hl', hpl⟩

/-- Claim C7: the loader fails with a `LoadError` exactly when the dataset
cannot be opened or when every line after header handling is filtered out
(zero usable records), and for no other reason; a row with fewer than five
non-empty fields is silently dropped — it causes no error and contributes
nothing — and every loaded record comes from a line the parser accepted. -/
theorem loadDataset_spec (file : Option (List String)) :
    ((∃ e, loadDataset file = Except.error e ∧ isLoadError e) ↔
      (file = none ∨ ∃ lines, file = some lines ∧
        ∀ l ∈ body lines, parseLine l = RowOutcome.skip)) ∧
    (∀ l, (split l ',').length < 5 → parseLine l = RowOutcome.skip) ∧
    (∀ l ls, parseLine l = RowOutcome.skip →
      loadRows (l :: ls) = loadRows ls) ∧
    (∀ ls recs, loadRows ls = some recs →
      ∀ r ∈ recs, ∃ l ∈ ls, parseLine l = RowOutcome.record r) := by
  refine ⟨?_, parseLine_short, loadRows_skip, loadRows_mem⟩
  cases file with
  | none =>
    constructor
    · intro _; exact Or.inl rfl
    · intro _; exact ⟨RunError.cantOpen, rfl, Or.inl rfl⟩
  | some lines =>
    cases hrows : loadRows (body lines) with
    | none =>
      constructor
      · rintro ⟨e, he, hle⟩
        simp only [loadDataset, hrows] at he
        injection he with he
        subst he
        rcases hle with h | h <;> cases h
      · rintro (h | ⟨lines', heq, hall⟩)
        · cases h
        · injection heq with heq
          subst heq
          rw [← loadRows_eq_nil_iff] at hall
          rw [hall] at hrows
          cases hrows
    | some recs =>
      cases recs with
      | nil =>
        constructor
        · intro _
          exact Or.inr ⟨lines, rfl, (loadRows_eq_nil_iff _).mp hrows⟩
        · intro _
          exact ⟨RunError.emptyData, by simp [loadDataset, hrows], Or.inr rfl⟩
      | cons r rs =>
        constructor
        · rintro ⟨e, he, hle⟩
          simp only [loadDataset, hrows] at he
          cases he
        · rintro (h | ⟨lines', heq, hall⟩)
          · cases h
          · injection heq with heq
            subst heq
            rw [← loadRows_eq_nil_iff] at hall
            rw [hall] at hrows
            simp at hrows

/-- Concrete instantiation of claim C7's theorem: a two-field row is
dropped silently. -/
theorem loadDataset_spec_witness : parseLine "1,2" = RowOutcome.skip :=
  (loadDataset_spec (some [])).2.1 "1,2" (by decide)

/-- Claim C8: for a non-empty first line, the loader skips it as a header
exactly when its first character is not a digit; a first line that starts
with a digit is kept and processed as a data row, so no such row is lost to
header detection. -/
theorem header_skip_iff (first : String) (rest : List String)
    (h : first.isEmpty = false) :
    (startsWithDigit first = false → body (first :: rest) = rest) ∧
    (startsWithDigit first = true → body (first :: rest) = first :: rest) := by
  constructor <;> intro hd <;> simp [body, h, hd]

/-- Concrete instantiation of claim C8's theorem: a digit-first line is
kept. -/
theorem header_skip_iff_witness :
    body ["1,a,2,3,4", "x"] = ["1,a,2,3,4", "x"] :=
  (header_skip_iff "1,a,2,3,4" ["x"] (by decide)).2 (by decide)

/-- Claim C10: the field splitter discards empty substrings, so every
record the loader produces was built from at least five non-empty
comma-separated fields, its id being the first of them; consequently no
loaded record carries an empty identifier (a row containing empty fields is
either dropped for having too few non-empty fields, or parsed with its
later fields shifted left). -/
theorem loaded_records_nonempty_id :
    (∀ s delim, ∀ t ∈ split s delim, t ≠ "") ∧
    (∀ l r, parseLine l = RowOutcome.record r →
      5 ≤ (split l ',').length ∧ r.id = (split l ',').getD 0 "" ∧
      r.id ≠ "") ∧
    (∀ ls recs, loadRows ls = some recs → ∀ r ∈ recs, r.id ≠ "") := by
  refine ⟨split_ne_empty, parseLine_record, ?_⟩
  intro ls recs h r hr
  obtain ⟨l, _, hpl⟩ := loadRows_mem ls recs h r hr
  exact (parseLine_record l r hpl).2.2

/-- Concrete instantiation of claim C10's theorem on a well-formed row. -/
theorem loaded_records_nonempty_id_witness :
    5 ≤ (split "1,a,2,3,4" ',').length ∧
    (⟨"1", {"a"}, 2, 3, 4⟩ : Record).id = (split "1,a,2,3,4" ',').getD 0 "" ∧
    (⟨"1", {"a"}, 2, 3, 4⟩ : Record).id ≠ "" :=
  loaded_records_nonempty_id.2.1 "1,a,2,3,4" ⟨"1", {"a"}, 2, 3, 4⟩ (by decide)

/-- Claim C6 as stated is refuted by this input: `K = 1` is valid and the
query tag list is empty after splitting, yet the run fails as the
`LoadError` `cantOpen` — not as an `InvalidArgument` — because the dataset
is opened (lines 54-58) before the query tags are validated (lines 92-97). -/
theorem run_empty_query_not_invalid_argument :
    run 1 none "" = Except.error RunError.cantOpen ∧
    ¬ isInvalidArgument RunError.cantOpen ∧
    tagsOf "" = ∅ := by
  refine ⟨rfl, ?_, by decide⟩
  rintro (h | h) <;> cases h

/-- Claim C6 as amended: a non-positive `K` always fails as
`InvalidArgument` before anything is read; an empty query tag list fails as
`InvalidArgument` whenever the dataset loads successfully (when it does
not, the earlier load failure is reported instead); and in every invocation
with `K ≤ 0` or an empty query tag list, the run errors out with non-zero
exit and produces no report content. -/
theorem run_invalid_inputs (k : Int) (file : Option (List String))
    (queryArg : String) :
    (k ≤ 0 → run k file queryArg = Except.error RunError.invalidK ∧
      isInvalidArgument RunError.invalidK) ∧
    (0 < k → tagsOf queryArg = ∅ →
      ∀ videos, loadDataset file = Except.ok videos →
        run k file queryArg = Except.error RunError.emptyQuery ∧
        isInvalidArgument RunError.emptyQuery) ∧
    ((k ≤ 0 ∨ tagsOf queryArg = ∅) →
      ∃ e, run k file queryArg = Except.error e) := by
  refine ⟨fun hk => ⟨by simp [run, hk], Or.inl rfl⟩, ?_, ?_⟩
  · intro hk hq videos hload
    refine ⟨?_, Or.inr rfl⟩
    simp [run, hload, hq, not_le.mpr hk]
  · intro h
    by_cases hk : k ≤ 0
    · exact ⟨RunError.invalidK, by simp [run, hk]⟩
    · rcases h with hk' | hq
      · exact absurd hk' hk
      · cases hload : loadDataset file with
        | error e => exact ⟨e, by simp [run, hk, hload]⟩
        | ok videos =>
          exact ⟨RunError.emptyQuery, by simp [run, hk, hload, hq]⟩

/-- Concrete instantiation of the amended claim C6's theorem at `K = 0`. -/
theorem run_invalid_inputs_witness :
    run 0 none "x" = Except.error RunError.invalidK ∧
    isInvalidArgument RunError.invalidK :=
  (run_invalid_inputs 0 none "x").1 (by decide)

end TiktokKnn
